import Mathlib

/-!
Verification development for picturephone.c: a shallow embedding of the
peer protocol parser, the session state updates, the rasterizer, the
density-ramp parser, the resize/Config step and the rate-limited send
scheduler, together with theorems settling the specification claims.

Bytes are modelled as Nat (reads from unsigned char arrays take the value
mod 256), machine ints as Nat on the non-negative domains the code
exercises, and the growing append buffer as a List Nat of emitted bytes.
-/

namespace Picturephone

/-! ### Peer protocol (src/picturephone.c, runNetworkMode lines 1481-1540) -/

/-- A decoded wire packet: Config carries the two dimension bytes, Picture
carries the dimension bytes and its luminance payload. -/
inductive Packet where
  | config (w h : Nat)
  | picture (w h : Nat) (payload : List Nat)
deriving DecidableEq

/-- One run of the receive loop, fuelled to make the recursion structural.
Mirrors the C loop: while the accumulator has at least 3 bytes, a type
byte 67 (C) consumes 3 bytes, a type byte 80 (P) consumes 3 + w*h bytes
once they are all present and otherwise leaves the accumulator intact,
and any other type byte is dropped (resync). -/
def parseAccF : Nat → List Nat → List Packet × List Nat
  | fuel + 1, t :: w :: h :: rest =>
    if t = 67 then
      let r := parseAccF fuel rest
      (Packet.config w h :: r.1, r.2)
    else if t = 80 then
      if w * h ≤ rest.length then
        let r := parseAccF fuel (rest.drop (w * h))
        (Packet.picture w h (rest.take (w * h)) :: r.1, r.2)
      else
        ([], t :: w :: h :: rest)
    else
      parseAccF fuel (w :: h :: rest)
  | _, l => ([], l)

/-- The receive loop on an accumulator: enough fuel to consume every byte. -/
def parseAcc (l : List Nat) : List Packet × List Nat :=
  parseAccF (l.length + 1) l

/-- Wire encoding of a packet (type byte, two dimension bytes, payload). -/
def encodePacket : Packet → List Nat
  | .config w h => [67, w, h]
  | .picture w h payload => 80 :: w :: h :: payload

/-- Wire encoding of a packet sequence. -/
def encodeList (ps : List Packet) : List Nat :=
  ps.flatMap encodePacket

/-- A well-formed packet: dimensions fit in one byte and a Picture payload
has exactly w*h bytes. -/
def Packet.wf : Packet → Prop
  | .config w h => w ≤ 255 ∧ h ≤ 255
  | .picture w h payload => w ≤ 255 ∧ h ≤ 255 ∧ payload.length = w * h

/-- Feeding the receive loop a sequence of read chunks, accumulating the
decoded packets and carrying the leftover accumulator between reads. -/
def feedChunks (chunks : List (List Nat)) : List Packet × List Nat :=
  chunks.foldl (fun st c =>
    let r := parseAcc (st.2 ++ c)
    (st.1 ++ r.1, r.2)) ([], [])

/-! ### Session state (runNetworkMode lines 1407-1428, 1499-1516) -/

/-- The session-loop state the packet handlers touch: the resolution the
peer asked for and the stored last peer picture. -/
structure NetState where
  peer_w : Nat
  peer_h : Nat
  last_peer_w : Nat
  last_peer_h : Nat
  last_peer_pixels : List Nat
deriving DecidableEq

/-- Initial session state: peer resolution defaults to 80x60, no peer
picture yet. -/
def netInit : NetState :=
  { peer_w := 80, peer_h := 60, last_peer_w := 0, last_peer_h := 0,
    last_peer_pixels := [] }

/-- Effect of one decoded packet on the session state: a Config with both
dimensions positive updates the peer resolution (otherwise it is ignored);
a Picture is stored as the last peer frame. -/
def applyPacket (st : NetState) : Packet → NetState
  | .config w h =>
    if 0 < w ∧ 0 < h then { st with peer_w := w, peer_h := h } else st
  | .picture w h payload =>
    { st with last_peer_w := w, last_peer_h := h, last_peer_pixels := payload }

/-- A captured BGRA frame: dimensions and the byte store of its pixels. -/
structure Frame where
  width : Nat
  height : Nat
  pixels : Nat → Nat

/-- The send path's luminance payload (runNetworkMode lines 1555-1567):
nearest-neighbour resample of the BGRA frame to w x h and the integer
luminance formula (r*77 + g*150 + b*29) >> 8, row-major. -/
def framePayload (f : Frame) (w h : Nat) : List Nat :=
  (List.range h).flatMap (fun y =>
    (List.range w).map (fun x =>
      let ix := (x * f.width) / w
      let iy := (y * f.height) / h
      let off := (iy * f.width + ix) * 4
      let b := f.pixels off % 256
      let g := f.pixels (off + 1) % 256
      let r := f.pixels (off + 2) % 256
      (r * 77 + g * 150 + b * 29) / 256))

/-- Bytes written for one outgoing Picture: header P w h, then the payload
encoded at the peer's requested resolution. -/
def sendPicture (st : NetState) (f : Frame) : List Nat :=
  80 :: st.peer_w % 256 :: st.peer_h % 256 :: framePayload f st.peer_w st.peer_h

/-! ### Resize check (runNetworkMode lines 1437-1452) -/

/-- Clamp a dimension to at most 255, as the session loop does before
storing it or putting it in a Config byte. -/
def clamp255 (n : Nat) : Nat :=
  if n > 255 then 255 else n

/-- One iteration's resize check: when the raw terminal size differs from
the stored pair, store the clamped size and emit a Config packet carrying
the clamped bytes; otherwise change nothing and send nothing. -/
def resizeStep (screencols screenrows my_w my_h : Nat) :
    (Nat × Nat) × Option (List Nat) :=
  if screencols ≠ my_w ∨ screenrows ≠ my_h then
    let nw := clamp255 screencols
    let nh := clamp255 screenrows
    ((nw, nh), some [67, nw % 256, nh % 256])
  else
    ((my_w, my_h), none)

/-! ### Rate-limited send scheduler (runNetworkMode lines 1543-1573) -/

/-- Send times produced by the session loop's rate limiter when a capture
frame is available on every tick: given the iteration timestamps and the
current deadline, a tick at or past the deadline sends and moves the
deadline 33 ms past the current time. -/
def runSends : List Nat → Nat → List Nat
  | [], _ => []
  | now :: rest, d =>
    if d ≤ now then now :: runSends rest (now + 33)
    else runSends rest d

/-! ### Density ramp (get_utf8_char_len lines 962-968, setDensityString
lines 993-1019) -/

/-- Number of bytes in the UTF-8 character whose lead byte is c: top bit
clear is 1 byte, 110xxxxx starts 2, 1110xxxx starts 3, 11110xxx starts 4,
anything else falls back to 1. -/
def get_utf8_char_len (c : Nat) : Nat :=
  if c &&& 0x80 = 0 then 1
  else if c &&& 0xE0 = 0xC0 then 2
  else if c &&& 0xF0 = 0xE0 then 3
  else if c &&& 0xF8 = 0xF0 then 4
  else 1

/-- Fuelled segmentation of a byte string into glyphs by UTF-8 lead byte;
a glyph never runs past the end of the string. -/
def utf8SegmentsF : Nat → List Nat → List (List Nat)
  | fuel + 1, c :: rest =>
    let n := get_utf8_char_len c
    (c :: rest.take (n - 1)) :: utf8SegmentsF fuel (rest.drop (n - 1))
  | _, _ => []

/-- Segmentation of a density byte string into its glyphs. -/
def utf8Segments (s : List Nat) : List (List Nat) :=
  utf8SegmentsF s.length s

/-- setDensityString: segment the byte string into glyphs; an empty result
leaves no ramp configured (none). -/
def setDensityString (s : List Nat) : Option (List (List Nat)) :=
  if (utf8Segments s).length = 0 then none else some (utf8Segments s)

/-! ### Rasterizer (renderBuffer lines 1076-1120, renderBufferBGRA lines
1123-1177) -/

/-- ASCII decimal digit bytes of n, as snprintf %d prints it. -/
def decimalBytes (n : Nat) : List Nat :=
  (Nat.toDigits 10 n).map Char.toNat

/-- The bytes of the cursor-position escape ESC [ row ; col H emitted at
the start of each destination row. -/
def cursorPos (row col : Nat) : List Nat :=
  27 :: 91 :: decimalBytes row ++ 59 :: decimalBytes col ++ [72]

/-- Horizontal source index for destination column x: nearest-neighbour
ratio (reflected when mirroring), then clamped below the source width. -/
def srcX (mirror : Bool) (x tw w : Nat) : Nat :=
  let ix := if mirror then ((tw - 1 - x) * w) / tw else (x * w) / tw
  if ix ≥ w then w - 1 else ix

/-- Vertical source index for destination row y, clamped below the source
height. -/
def srcY (y th h : Nat) : Nat :=
  let iy := (y * h) / th
  if iy ≥ h then h - 1 else iy

/-- Luminance sample of a grayscale source at destination cell (x, y):
read the clamped nearest-neighbour source byte. -/
def sampleLuma (pixels : Nat → Nat) (w h tw th : Nat) (mirror : Bool)
    (x y : Nat) : Nat :=
  pixels (srcY y th h * w + srcX mirror x tw w) % 256

/-- Luminance sample of a BGRA source at destination cell (x, y): read the
clamped nearest-neighbour BGRA quad and apply (r*77 + g*150 + b*29) >> 8. -/
def sampleBGRA (pixels : Nat → Nat) (w h tw th : Nat) (mirror : Bool)
    (x y : Nat) : Nat :=
  let off := (srcY y th h * w + srcX mirror x tw w) * 4
  let b := pixels off % 256
  let g := pixels (off + 1) % 256
  let r := pixels (off + 2) % 256
  (r * 77 + g * 150 + b * 29) / 256

/-- All samples of the destination grid in loop order (rows outer). -/
def gridSamples (sample : Nat → Nat → Nat) (tw th : Nat) : List Nat :=
  (List.range th).flatMap (fun y => (List.range tw).map (fun x => sample x y))

/-- Per-frame minimum of the destination grid, folded from 255 as the C
normalization pass does. -/
def gridMin (sample : Nat → Nat → Nat) (tw th : Nat) : Nat :=
  (gridSamples sample tw th).foldl min 255

/-- Per-frame maximum of the destination grid, folded from 0. -/
def gridMax (sample : Nat → Nat → Nat) (tw th : Nat) : Nat :=
  (gridSamples sample tw th).foldl max 0

/-- Glyph index of a sample value: (v - min) * (ramp_len - 1) / range,
clamped above by ramp_len - 1. -/
def rampIdx (dCount rangev minv v : Nat) : Nat :=
  let dMax := dCount - 1
  let idx := (v - minv) * dMax / rangev
  if idx > dMax then dMax else idx

/-- The glyph index of every destination cell, row by row, under the
per-frame min/max normalization of the render pass. -/
def idxGrid (dCount : Nat) (sample : Nat → Nat → Nat) (tw th : Nat) :
    List (List Nat) :=
  let minv := gridMin sample tw th
  let maxv := gridMax sample tw th
  let rangev := if maxv - minv = 0 then 1 else maxv - minv
  (List.range th).map (fun y =>
    (List.range tw).map (fun x => rampIdx dCount rangev minv (sample x y)))

/-- The shared body of renderBuffer and renderBufferBGRA: nothing for an
empty destination; otherwise one normalization pass, then per destination
row a cursor-position escape followed by the glyph bytes of each cell. -/
def renderCore (glyphs : List (List Nat)) (sample : Nat → Nat → Nat)
    (x_off y_off tw th : Nat) : List Nat :=
  if tw = 0 ∨ th = 0 then []
  else
    let minv := gridMin sample tw th
    let maxv := gridMax sample tw th
    let rangev := if maxv - minv = 0 then 1 else maxv - minv
    (List.range th).flatMap (fun y =>
      cursorPos (y_off + y + 1) (x_off + 1) ++
      (List.range tw).flatMap (fun x =>
        if 0 < glyphs.length then
          glyphs.getD (rampIdx glyphs.length rangev minv (sample x y)) []
        else []))

/-- renderBuffer: rasterize a grayscale source onto the destination
region. -/
def renderBuffer (glyphs : List (List Nat)) (pixels : Nat → Nat)
    (w h x_off y_off tw th : Nat) (mirror : Bool) : List Nat :=
  renderCore glyphs (sampleLuma pixels w h tw th mirror) x_off y_off tw th

/-- renderBufferBGRA: rasterize a BGRA source onto the destination
region. -/
def renderBufferBGRA (glyphs : List (List Nat)) (pixels : Nat → Nat)
    (w h x_off y_off tw th : Nat) (mirror : Bool) : List Nat :=
  renderCore glyphs (sampleBGRA pixels w h tw th mirror) x_off y_off tw th

/-- The six-glyph ASCII default density ramp, one byte per glyph. -/
def asciiRamp : List (List Nat) :=
  [[32], [46], [120], [63], [65], [64]]

/-! ### Parser lemmas -/

theorem parseAccF_eq (f₁ : Nat) : ∀ (f₂ : Nat) (l : List Nat),
    l.length < f₁ → l.length < f₂ → parseAccF f₁ l = parseAccF f₂ l := by
  induction f₁ with
  | zero => intro f₂ l h1 _; omega
  | succ f ih =>
    intro f₂ l h1 h2
    cases f₂ with
    | zero => omega
    | succ g =>
      cases l with
      | nil => rfl
      | cons t l1 =>
        cases l1 with
        | nil => rfl
        | cons wb l2 =>
          cases l2 with
          | nil => rfl
          | cons hb rest =>
            simp only [List.length_cons] at h1 h2
            simp only [parseAccF]
            by_cases ht : t = 67
            · simp only [if_pos ht]
              rw [ih g rest (by omega) (by omega)]
            · by_cases hp : t = 80
              · simp only [if_neg ht, if_pos hp]
                by_cases hsz : wb * hb ≤ rest.length
                · simp only [if_pos hsz]
                  rw [ih g (rest.drop (wb * hb))
                    (by simp [List.length_drop]; omega)
                    (by simp [List.length_drop]; omega)]
                · simp only [if_neg hsz]
              · simp only [if_neg ht, if_neg hp]
                rw [ih g (wb :: hb :: rest) (by simp; omega) (by simp; omega)]

theorem parseAccF_config (f wb hb : Nat) (rest : List Nat) :
    parseAccF (f + 1) (67 :: wb :: hb :: rest) =
      (Packet.config wb hb :: (parseAccF f rest).1, (parseAccF f rest).2) := by
  simp [parseAccF]

theorem parseAccF_P_complete (f wb hb : Nat) (rest : List Nat)
    (hsz : wb * hb ≤ rest.length) :
    parseAccF (f + 1) (80 :: wb :: hb :: rest) =
      (Packet.picture wb hb (rest.take (wb * hb)) ::
        (parseAccF f (rest.drop (wb * hb))).1,
       (parseAccF f (rest.drop (wb * hb))).2) := by
  simp [parseAccF, hsz]

theorem parseAccF_P_incomplete (f wb hb : Nat) (rest : List Nat)
    (hsz : rest.length < wb * hb) :
    parseAccF (f + 1) (80 :: wb :: hb :: rest) = ([], 80 :: wb :: hb :: rest) := by
  have : ¬ wb * hb ≤ rest.length := by omega
  simp [parseAccF, this]

theorem parseAccF_junk (f t wb hb : Nat) (rest : List Nat)
    (ht : t ≠ 67) (hp : t ≠ 80) :
    parseAccF (f + 1) (t :: wb :: hb :: rest) = parseAccF f (wb :: hb :: rest) := by
  simp [parseAccF, ht, hp]

theorem parseAcc_nil : parseAcc [] = ([], []) := rfl

theorem parseAcc_short (l : List Nat) (h : l.length < 3) : parseAcc l = ([], l) := by
  match l with
  | [] => rfl
  | [a] => rfl
  | [a, b] => rfl
  | a :: b :: c :: r => simp at h; omega

theorem parseAcc_config (wb hb : Nat) (rest : List Nat) :
    parseAcc (67 :: wb :: hb :: rest) =
      (Packet.config wb hb :: (parseAcc rest).1, (parseAcc rest).2) := by
  show parseAccF ((rest.length + 3) + 1) (67 :: wb :: hb :: rest) = _
  rw [parseAccF_config]
  rw [parseAccF_eq (rest.length + 3) (rest.length + 1) rest (by omega) (by omega)]
  rfl

theorem parseAcc_P_complete (wb hb : Nat) (rest : List Nat)
    (hsz : wb * hb ≤ rest.length) :
    parseAcc (80 :: wb :: hb :: rest) =
      (Packet.picture wb hb (rest.take (wb * hb)) ::
        (parseAcc (rest.drop (wb * hb))).1,
       (parseAcc (rest.drop (wb * hb))).2) := by
  show parseAccF ((rest.length + 3) + 1) (80 :: wb :: hb :: rest) = _
  rw [parseAccF_P_complete _ _ _ _ hsz]
  rw [parseAccF_eq (rest.length + 3) ((rest.drop (wb * hb)).length + 1)
    (rest.drop (wb * hb)) (by simp [List.length_drop]; omega) (by omega)]
  rfl

theorem parseAcc_P_incomplete (wb hb : Nat) (rest : List Nat)
    (hsz : rest.length < wb * hb) :
    parseAcc (80 :: wb :: hb :: rest) = ([], 80 :: wb :: hb :: rest) := by
  show parseAccF ((rest.length + 3) + 1) (80 :: wb :: hb :: rest) = _
  rw [parseAccF_P_incomplete _ _ _ _ hsz]

theorem parseAcc_junk (t wb hb : Nat) (rest : List Nat)
    (ht : t ≠ 67) (hp : t ≠ 80) :
    parseAcc (t :: wb :: hb :: rest) = parseAcc (wb :: hb :: rest) := by
  show parseAccF ((rest.length + 3) + 1) (t :: wb :: hb :: rest) = _
  rw [parseAccF_junk _ _ _ _ _ ht hp]
  rfl

theorem parseAcc_append_aux : ∀ (n : Nat) (a b : List Nat), a.length = n →
    parseAcc (a ++ b) =
      ((parseAcc a).1 ++ (parseAcc ((parseAcc a).2 ++ b)).1,
       (parseAcc ((parseAcc a).2 ++ b)).2) := by
  intro n
  induction n using Nat.strong_induction_on with
  | _ n ih =>
    intro a b hn
    match a with
    | [] => simp [parseAcc_nil]
    | [t] =>
      rw [parseAcc_short [t] (by simp)]
      simp
    | [t, wb] =>
      rw [parseAcc_short [t, wb] (by simp)]
      simp
    | t :: wb :: hb :: rest =>
      simp only [List.length_cons] at hn
      by_cases ht : t = 67
      · subst ht
        simp only [List.cons_append]
        rw [parseAcc_config, parseAcc_config]
        rw [ih rest.length (by omega) rest b rfl]
        simp
      · by_cases hp : t = 80
        · subst hp
          by_cases hsz : wb * hb ≤ rest.length
          · simp only [List.cons_append]
            rw [parseAcc_P_complete wb hb (rest ++ b)
              (by simp [List.length_append]; omega)]
            rw [parseAcc_P_complete wb hb rest hsz]
            rw [List.take_append_of_le_length hsz, List.drop_append_of_le_length hsz]
            rw [ih (rest.drop (wb * hb)).length
              (by simp [List.length_drop]; omega) (rest.drop (wb * hb)) b rfl]
            simp
          · rw [parseAcc_P_incomplete wb hb rest (by omega)]
            simp
        · simp only [List.cons_append]
          rw [parseAcc_junk t wb hb (rest ++ b) ht hp, parseAcc_junk t wb hb rest ht hp]
          rw [show wb :: hb :: (rest ++ b) = (wb :: hb :: rest) ++ b from rfl]
          exact ih (wb :: hb :: rest).length (by simp; omega) (wb :: hb :: rest) b rfl

/-- The receive loop is compositional under accumulator growth: parsing
a ++ b decodes what a alone decodes, then continues on the leftover of a
followed by b. -/
theorem parseAcc_append (a b : List Nat) :
    parseAcc (a ++ b) =
      ((parseAcc a).1 ++ (parseAcc ((parseAcc a).2 ++ b)).1,
       (parseAcc ((parseAcc a).2 ++ b)).2) :=
  parseAcc_append_aux a.length a b rfl

theorem parseAcc_stuck_aux : ∀ (n : Nat) (l : List Nat), l.length = n →
    parseAcc (parseAcc l).2 = ([], (parseAcc l).2) := by
  intro n
  induction n using Nat.strong_induction_on with
  | _ n ih =>
    intro l hn
    match l with
    | [] => rfl
    | [t] => rw [parseAcc_short [t] (by simp)]; exact parseAcc_short [t] (by simp)
    | [t, wb] => rw [parseAcc_short [t, wb] (by simp)]; exact parseAcc_short [t, wb] (by simp)
    | t :: wb :: hb :: rest =>
      simp only [List.length_cons] at hn
      by_cases ht : t = 67
      · subst ht
        rw [parseAcc_config]
        exact ih rest.length (by omega) rest rfl
      · by_cases hp : t = 80
        · subst hp
          by_cases hsz : wb * hb ≤ rest.length
          · rw [parseAcc_P_complete wb hb rest hsz]
            exact ih (rest.drop (wb * hb)).length (by simp [List.length_drop]; omega) _ rfl
          · rw [parseAcc_P_incomplete wb hb rest (by omega)]
            exact parseAcc_P_incomplete wb hb rest (by omega)
        · rw [parseAcc_junk t wb hb rest ht hp]
          exact ih (wb :: hb :: rest).length (by simp; omega) _ rfl

/-- The leftover of one parser run is stuck: re-running the parser on it
decodes nothing and leaves it unchanged. -/
theorem parseAcc_stuck (l : List Nat) :
    parseAcc (parseAcc l).2 = ([], (parseAcc l).2) :=
  parseAcc_stuck_aux l.length l rfl

/-- Parsing the encoding of well-formed packets followed by any further
bytes decodes exactly those packets and then continues on the rest. -/
theorem parseAcc_encode (ps : List Packet) (hwf : ∀ p ∈ ps, p.wf) (r : List Nat) :
    parseAcc (encodeList ps ++ r) = (ps ++ (parseAcc r).1, (parseAcc r).2) := by
  induction ps with
  | nil => simp [encodeList]
  | cons p ps ih =>
    have hp : p.wf := hwf p (by simp)
    have hps : ∀ q ∈ ps, q.wf := fun q hq => hwf q (by simp [hq])
    cases p with
    | config wb hb =>
      simp only [encodeList, List.flatMap_cons, encodePacket, List.append_assoc,
        List.cons_append, List.nil_append]
      rw [parseAcc_config]
      rw [show ps.flatMap encodePacket = encodeList ps from rfl, ih hps]
    | picture wb hb payload =>
      obtain ⟨hw, hh, hlen⟩ := hp
      simp only [encodeList, List.flatMap_cons, encodePacket, List.append_assoc,
        List.cons_append]
      rw [parseAcc_P_complete wb hb (payload ++ (ps.flatMap encodePacket ++ r))
        (by simp [List.length_append]; omega)]
      rw [← hlen, List.take_left, List.drop_left]
      rw [show ps.flatMap encodePacket = encodeList ps from rfl, ih hps]

theorem feedChunks_aux : ∀ (chunks : List (List Nat)) (ps0 : List Packet) (acc0 : List Nat),
    parseAcc acc0 = ([], acc0) →
    chunks.foldl (fun st c =>
      let r := parseAcc (st.2 ++ c)
      (st.1 ++ r.1, r.2)) (ps0, acc0) =
      (ps0 ++ (parseAcc (acc0 ++ chunks.flatten)).1,
       (parseAcc (acc0 ++ chunks.flatten)).2) := by
  intro chunks
  induction chunks with
  | nil =>
    intro ps0 acc0 hstuck
    simp [hstuck]
  | cons c cs ih =>
    intro ps0 acc0 hstuck
    simp only [List.foldl_cons, List.flatten_cons]
    rw [ih (ps0 ++ (parseAcc (acc0 ++ c)).1) (parseAcc (acc0 ++ c)).2 (parseAcc_stuck _)]
    rw [show acc0 ++ (c ++ cs.flatten) = (acc0 ++ c) ++ cs.flatten by simp [List.append_assoc]]
    rw [parseAcc_append (acc0 ++ c) cs.flatten]
    simp [List.append_assoc]

/-- Feeding the receive loop any sequence of chunks is the same as parsing
their concatenation in one go. -/
theorem feedChunks_flatten (chunks : List (List Nat)) :
    feedChunks chunks = parseAcc chunks.flatten := by
  unfold feedChunks
  rw [feedChunks_aux chunks [] [] parseAcc_nil]
  simp

/-! ### Claim theorems: protocol and session loop -/

/-- C1 (counterexample): it is not the case that a Config is sent iff the
clamped terminal size differs from the stored pair: with the terminal at
300x24 and the stored pair 255x24 the clamped size equals the stored pair,
yet the resize check sends a Config. -/
theorem claim_C1_counterexample :
    ¬ (((resizeStep 300 24 255 24).2 ≠ none) ↔
       (clamp255 300 ≠ 255 ∨ clamp255 24 ≠ 24)) := by
  decide

/-- C1 (amended): a Config packet is sent iff the raw (unclamped) terminal
size differs from the stored pair; when it is sent, the stored pair is
updated to the clamped values and the packet carries those clamped values;
in particular a resize to 120x30 (29 usable rows) sends C 120 29. -/
theorem claim_C1_amended (screencols screenrows my_w my_h : Nat) :
    (((resizeStep screencols screenrows my_w my_h).2 ≠ none) ↔
      (screencols ≠ my_w ∨ screenrows ≠ my_h)) ∧
    ((screencols ≠ my_w ∨ screenrows ≠ my_h) →
      resizeStep screencols screenrows my_w my_h =
        ((clamp255 screencols, clamp255 screenrows),
         some [67, clamp255 screencols, clamp255 screenrows])) ∧
    resizeStep 120 29 80 23 = ((120, 29), some [67, 120, 29]) := by
  have hmod : ∀ n : Nat, clamp255 n % 256 = clamp255 n := by
    intro n; unfold clamp255; split <;> omega
  refine ⟨?_, ?_, by decide⟩
  · constructor
    · intro hne
      by_contra hc
      push_neg at hc
      apply hne
      unfold resizeStep
      rw [if_neg (by tauto)]
    · intro hd
      unfold resizeStep
      rw [if_pos hd]
      simp
  · intro hd
    unfold resizeStep
    rw [if_pos hd]
    simp [hmod]

/-- C1 (witness): at terminal 300x24 with stored pair 255x24 the resize
check stores the clamped pair and sends a Config with the clamped bytes. -/
theorem claim_C1_witness :
    resizeStep 300 24 255 24 = ((255, 24), some [67, 255, 24]) := by
  have h := (claim_C1_amended 300 24 255 24).2.1 (Or.inl (by omega))
  simpa [clamp255] using h

/-- C3: feeding any chunking of the encoding of a well-formed packet
sequence through the receive loop decodes exactly those packets, the same
result as parsing the whole stream at once, and an incomplete Picture
leaves the accumulator intact. -/
theorem claim_C3 (ps : List Packet) (chunks : List (List Nat))
    (hwf : ∀ p ∈ ps, p.wf) (hflat : chunks.flatten = encodeList ps) :
    feedChunks chunks = (ps, []) ∧
    parseAcc (encodeList ps) = (ps, []) ∧
    (∀ (wb hb : Nat) (rest : List Nat), rest.length < wb * hb →
      parseAcc (80 :: wb :: hb :: rest) = ([], 80 :: wb :: hb :: rest)) := by
  have hwhole : parseAcc (encodeList ps) = (ps, []) := by
    have h := parseAcc_encode ps hwf []
    simpa [parseAcc_nil] using h
  refine ⟨?_, hwhole, fun wb hb rest h => parseAcc_P_incomplete wb hb rest h⟩
  rw [feedChunks_flatten, hflat, hwhole]

/-- C3 (witness): a Config and a Picture split across three reads decode
to the same two packets as the whole stream. -/
theorem claim_C3_witness :
    feedChunks [[67], [1, 1, 80, 1], [1, 7]] =
      ([Packet.config 1 1, Packet.picture 1 1 [7]], []) :=
  (claim_C3 [Packet.config 1 1, Packet.picture 1 1 [7]] [[67], [1, 1, 80, 1], [1, 7]]
    (by
      intro p hp
      simp only [List.mem_cons, List.not_mem_nil, or_false] at hp
      rcases hp with h | h <;> subst h
      · exact ⟨by omega, by omega⟩
      · exact ⟨by omega, by omega, rfl⟩)
    rfl).1

/-- C4: a single junk byte (neither C nor P) between two well-formed
packets is skipped and both packets decode unchanged; concretely,
byte 0x58 before Config C 0x50 0x28 is discarded, the Config is consumed
leaving the accumulator empty, and the peer resolution becomes 80x40. -/
theorem claim_C4 (p1 p2 : Packet) (j : Nat)
    (h1 : p1.wf) (h2 : p2.wf) (hj1 : j ≠ 67) (hj2 : j ≠ 80) :
    parseAcc (encodePacket p1 ++ j :: encodePacket p2) = ([p1, p2], []) ∧
    parseAcc [88, 67, 80, 40] = ([Packet.config 80 40], []) ∧
    applyPacket netInit (Packet.config 80 40) =
      { netInit with peer_w := 80, peer_h := 40 } := by
  refine ⟨?_, by decide, by decide⟩
  have hstep : parseAcc (j :: encodePacket p2) = ([p2], []) := by
    obtain ⟨t, wb, hb, rest, he⟩ :
        ∃ t wb hb rest, encodePacket p2 = t :: wb :: hb :: rest := by
      cases p2 <;> exact ⟨_, _, _, _, rfl⟩
    rw [he, parseAcc_junk j t wb (hb :: rest) hj1 hj2, ← he]
    have h := parseAcc_encode [p2]
      (by intro q hq; simp only [List.mem_singleton] at hq; subst hq; exact h2) []
    simpa [encodeList, parseAcc_nil] using h
  have h := parseAcc_encode [p1]
    (by intro q hq; simp only [List.mem_singleton] at hq; subst hq; exact h1)
    (j :: encodePacket p2)
  simpa [encodeList, hstep] using h

/-- C4 (witness): junk byte 88 between a Config and a Picture is skipped
and both packets decode. -/
theorem claim_C4_witness :
    parseAcc (encodePacket (Packet.config 10 20) ++
        88 :: encodePacket (Packet.picture 1 2 [3, 4])) =
      ([Packet.config 10 20, Packet.picture 1 2 [3, 4]], []) :=
  (claim_C4 (Packet.config 10 20) (Packet.picture 1 2 [3, 4]) 88
    ⟨by omega, by omega⟩ ⟨by omega, by omega, rfl⟩ (by omega) (by omega)).1

/-- C8: the default peer resolution is 80x60; a Config with a zero
dimension is ignored, so Pictures are still encoded at the unchanged
resolution; a Config with both dimensions positive sets the peer
resolution. -/
theorem claim_C8 :
    netInit.peer_w = 80 ∧ netInit.peer_h = 60 ∧
    (∀ (st : NetState) (wb hb : Nat), wb = 0 ∨ hb = 0 →
      applyPacket st (Packet.config wb hb) = st) ∧
    (∀ (st : NetState) (wb hb : Nat) (f : Frame), wb = 0 ∨ hb = 0 →
      sendPicture (applyPacket st (Packet.config wb hb)) f = sendPicture st f) ∧
    (∀ (st : NetState) (wb hb : Nat), 1 ≤ wb → 1 ≤ hb →
      applyPacket st (Packet.config wb hb) = { st with peer_w := wb, peer_h := hb }) := by
  have hig : ∀ (st : NetState) (wb hb : Nat), wb = 0 ∨ hb = 0 →
      applyPacket st (Packet.config wb hb) = st := by
    intro st wb hb h
    simp only [applyPacket]
    rw [if_neg (by omega)]
  refine ⟨rfl, rfl, hig, ?_, ?_⟩
  · intro st wb hb f h
    rw [hig st wb hb h]
  · intro st wb hb hw hh
    simp only [applyPacket]
    rw [if_pos ⟨by omega, by omega⟩]

/-- C8 (witness): a Config with width 0 leaves the default 80x60 peer
resolution; a Config 120x40 sets it. -/
theorem claim_C8_witness :
    applyPacket netInit (Packet.config 0 99) = netInit ∧
    applyPacket netInit (Packet.config 120 40) =
      { netInit with peer_w := 120, peer_h := 40 } :=
  ⟨claim_C8.2.2.1 netInit 0 99 (Or.inl rfl),
   claim_C8.2.2.2.2 netInit 120 40 (by omega) (by omega)⟩

/-! ### Render lemmas -/

theorem foldl_min_le_init (l : List Nat) : ∀ a : Nat, l.foldl min a ≤ a := by
  induction l with
  | nil => intro a; exact le_rfl
  | cons b l ih =>
    intro a
    calc l.foldl min (min a b) ≤ min a b := ih (min a b)
      _ ≤ a := min_le_left a b

theorem foldl_min_le_mem (l : List Nat) : ∀ a : Nat, ∀ x ∈ l, l.foldl min a ≤ x := by
  induction l with
  | nil => intro a x hx; simp at hx
  | cons b l ih =>
    intro a x hx
    rcases List.mem_cons.mp hx with h | h
    · subst h
      calc l.foldl min (min a x) ≤ min a x := foldl_min_le_init l (min a x)
        _ ≤ x := min_le_right a x
    · exact ih (min a b) x h

theorem init_le_foldl_max (l : List Nat) : ∀ a : Nat, a ≤ l.foldl max a := by
  induction l with
  | nil => intro a; exact le_rfl
  | cons b l ih =>
    intro a
    calc a ≤ max a b := le_max_left a b
      _ ≤ l.foldl max (max a b) := ih (max a b)

theorem mem_le_foldl_max (l : List Nat) : ∀ a : Nat, ∀ x ∈ l, x ≤ l.foldl max a := by
  induction l with
  | nil => intro a x hx; simp at hx
  | cons b l ih =>
    intro a x hx
    rcases List.mem_cons.mp hx with h | h
    · subst h
      calc x ≤ max a x := le_max_right a x
        _ ≤ l.foldl max (max a x) := init_le_foldl_max l (max a x)
    · exact ih (max a b) x h

theorem sample_mem_gridSamples (sample : Nat → Nat → Nat) (tw th x y : Nat)
    (hx : x < tw) (hy : y < th) : sample x y ∈ gridSamples sample tw th := by
  simp only [gridSamples, List.mem_flatMap, List.mem_map, List.mem_range]
  exact ⟨y, hy, x, hx, rfl⟩

theorem gridMin_le_sample (sample : Nat → Nat → Nat) (tw th x y : Nat)
    (hx : x < tw) (hy : y < th) : gridMin sample tw th ≤ sample x y :=
  foldl_min_le_mem _ 255 _ (sample_mem_gridSamples sample tw th x y hx hy)

theorem sample_le_gridMax (sample : Nat → Nat → Nat) (tw th x y : Nat)
    (hx : x < tw) (hy : y < th) : sample x y ≤ gridMax sample tw th :=
  mem_le_foldl_max _ 0 _ (sample_mem_gridSamples sample tw th x y hx hy)

theorem clamp_le (a w : Nat) (hw : 1 ≤ w) :
    (if a ≥ w then w - 1 else a) ≤ w - 1 := by
  split <;> omega

theorem srcX_le (mirror : Bool) (x tw w : Nat) (hw : 1 ≤ w) :
    srcX mirror x tw w ≤ w - 1 :=
  clamp_le _ w hw

theorem srcY_le (y th h : Nat) (hh : 1 ≤ h) : srcY y th h ≤ h - 1 :=
  clamp_le _ h hh

theorem rampIdx_le (dCount rangev minv v : Nat) :
    rampIdx dCount rangev minv v ≤ dCount - 1 := by
  show (if (v - minv) * (dCount - 1) / rangev > dCount - 1 then dCount - 1
        else (v - minv) * (dCount - 1) / rangev) ≤ dCount - 1
  split <;> omega

theorem rampIdx_min (dCount rangev minv : Nat) :
    rampIdx dCount rangev minv minv = 0 := by
  unfold rampIdx
  simp

theorem range_map_congr (n : Nat) (f g : Nat → Nat)
    (h : ∀ i, i < n → f i = g i) :
    (List.range n).map f = (List.range n).map g :=
  List.map_congr_left fun a ha => h a (List.mem_range.mp ha)

theorem range_flatMap_congr (n : Nat) (f g : Nat → List Nat)
    (h : ∀ i, i < n → f i = g i) :
    (List.range n).flatMap f = (List.range n).flatMap g := by
  rw [List.flatMap_def, List.flatMap_def]
  exact congrArg List.flatten
    (List.map_congr_left fun a ha => h a (List.mem_range.mp ha))

theorem getD_map_range (th y : Nat) (f : Nat → List Nat) (hy : y < th) :
    ((List.range th).map f).getD y [] = f y := by
  rw [List.getD_eq_getElem?_getD, List.getElem?_map, List.getElem?_range hy]
  rfl

theorem idxGrid_length (d : Nat) (sample : Nat → Nat → Nat) (tw th : Nat) :
    (idxGrid d sample tw th).length = th := by
  simp [idxGrid]

theorem idxGrid_row (d : Nat) (sample : Nat → Nat → Nat) (tw th : Nat)
    (row : List Nat) (hrow : row ∈ idxGrid d sample tw th) :
    row.length = tw ∧ ∀ i ∈ row, i ≤ d - 1 := by
  simp only [idxGrid, List.mem_map, List.mem_range] at hrow
  obtain ⟨y, hy, rfl⟩ := hrow
  refine ⟨by simp, ?_⟩
  intro i hi
  simp only [List.mem_map, List.mem_range] at hi
  obtain ⟨x, hx, rfl⟩ := hi
  exact rampIdx_le _ _ _ _

theorem idxGrid_const (d : Nat) (sample : Nat → Nat → Nat) (tw th : Nat)
    (hmm : gridMin sample tw th = gridMax sample tw th)
    (row : List Nat) (hrow : row ∈ idxGrid d sample tw th) :
    ∀ i ∈ row, i = 0 := by
  simp only [idxGrid, List.mem_map, List.mem_range] at hrow
  obtain ⟨y, hy, rfl⟩ := hrow
  intro i hi
  simp only [List.mem_map, List.mem_range] at hi
  obtain ⟨x, hx, rfl⟩ := hi
  have hlo := gridMin_le_sample sample tw th x y hx hy
  have hhi := sample_le_gridMax sample tw th x y hx hy
  have hv : sample x y = gridMin sample tw th := by omega
  rw [hv, rampIdx_min]

theorem renderCore_decomp (glyphs : List (List Nat)) (sample : Nat → Nat → Nat)
    (x_off y_off tw th : Nat) (htw : 1 ≤ tw) (hth : 1 ≤ th)
    (hg : 0 < glyphs.length) :
    renderCore glyphs sample x_off y_off tw th =
      (List.range th).flatMap (fun y =>
        cursorPos (y_off + y + 1) (x_off + 1) ++
        ((idxGrid glyphs.length sample tw th).getD y []).flatMap
          (fun i => glyphs.getD i [])) := by
  simp only [renderCore, idxGrid]
  rw [if_neg (by omega)]
  apply range_flatMap_congr
  intro y hy
  congr 1
  rw [getD_map_range _ _ _ hy, List.flatMap_map]
  apply range_flatMap_congr
  intro x hx
  rw [if_pos hg]

theorem renderCore_congr (glyphs : List (List Nat)) (f g : Nat → Nat → Nat)
    (x_off y_off tw th : Nat) (hfg : ∀ x, x < tw → ∀ y, y < th → f x y = g x y) :
    renderCore glyphs f x_off y_off tw th = renderCore glyphs g x_off y_off tw th := by
  have hsamples : gridSamples f tw th = gridSamples g tw th := by
    unfold gridSamples
    apply range_flatMap_congr
    intro y hy
    apply range_map_congr
    intro x hx
    exact hfg x hx y hy
  by_cases h0 : tw = 0 ∨ th = 0
  · simp [renderCore, h0]
  · simp only [renderCore, gridMin, gridMax, hsamples]
    rw [if_neg h0, if_neg h0]
    apply range_flatMap_congr
    intro y hy
    congr 1
    apply range_flatMap_congr
    intro x hx
    rw [hfg x hx y hy]

/-! ### Claim theorems: rasterizer -/

/-- C2 (counterexample): the Picture payload [0,64,128,255,32,96,160,224]
does not map to glyph indices 0,2,3,5 / 1,2,4,5 under the code's index
formula, neither unmirrored nor in the mirrored redraw. -/
theorem claim_C2_counterexample :
    idxGrid 6 (sampleLuma
        (fun i => [0, 64, 128, 255, 32, 96, 160, 224].getD i 0) 4 2 4 2 false) 4 2 ≠
      [[0, 2, 3, 5], [1, 2, 4, 5]] ∧
    idxGrid 6 (sampleLuma
        (fun i => [0, 64, 128, 255, 32, 96, 160, 224].getD i 0) 4 2 4 2 true) 4 2 ≠
      [[0, 2, 3, 5], [1, 2, 4, 5]] := by
  decide

/-- C2 (amended): the P packet with w=4, h=2 and that payload decodes to a
Picture stored as last_peer with dimensions 4x2 and exactly those bytes;
under per-frame normalization (min=0, max=255) the truncating index
formula maps the eight values to indices 0,1,2,5 then 0,1,3,4 in payload
order, and the redraw (which renders the peer mirrored) emits each row
reversed: 5,2,1,0 then 4,3,1,0. -/
theorem claim_C2_amended :
    parseAcc (80 :: 4 :: 2 :: [0, 64, 128, 255, 32, 96, 160, 224]) =
      ([Packet.picture 4 2 [0, 64, 128, 255, 32, 96, 160, 224]], []) ∧
    applyPacket netInit (Packet.picture 4 2 [0, 64, 128, 255, 32, 96, 160, 224]) =
      { netInit with last_peer_w := 4, last_peer_h := 2,
                     last_peer_pixels := [0, 64, 128, 255, 32, 96, 160, 224] } ∧
    gridMin (sampleLuma
      (fun i => [0, 64, 128, 255, 32, 96, 160, 224].getD i 0) 4 2 4 2 true) 4 2 = 0 ∧
    gridMax (sampleLuma
      (fun i => [0, 64, 128, 255, 32, 96, 160, 224].getD i 0) 4 2 4 2 true) 4 2 = 255 ∧
    idxGrid 6 (sampleLuma
        (fun i => [0, 64, 128, 255, 32, 96, 160, 224].getD i 0) 4 2 4 2 false) 4 2 =
      [[0, 1, 2, 5], [0, 1, 3, 4]] ∧
    idxGrid 6 (sampleLuma
        (fun i => [0, 64, 128, 255, 32, 96, 160, 224].getD i 0) 4 2 4 2 true) 4 2 =
      [[5, 2, 1, 0], [4, 3, 1, 0]] := by
  decide

/-- C5: for positive source, destination and ramp sizes, both rasterizer
entry points emit, per destination row, one cursor-position prefix
followed by the glyphs of that row's index list; every row of the index
grid has exactly dw entries, every index is at most ramp_len - 1, and when
the per-frame minimum equals the maximum every index is 0. -/
theorem claim_C5 (glyphs : List (List Nat)) (pixels : Nat → Nat)
    (w h x_off y_off tw th : Nat) (mirror : Bool)
    (hw : 1 ≤ w) (hh : 1 ≤ h) (htw : 1 ≤ tw) (hth : 1 ≤ th)
    (hg : 1 ≤ glyphs.length) :
    (renderBuffer glyphs pixels w h x_off y_off tw th mirror =
      (List.range th).flatMap (fun y =>
        cursorPos (y_off + y + 1) (x_off + 1) ++
        ((idxGrid glyphs.length (sampleLuma pixels w h tw th mirror) tw th).getD y []).flatMap
          (fun i => glyphs.getD i []))) ∧
    (renderBufferBGRA glyphs pixels w h x_off y_off tw th mirror =
      (List.range th).flatMap (fun y =>
        cursorPos (y_off + y + 1) (x_off + 1) ++
        ((idxGrid glyphs.length (sampleBGRA pixels w h tw th mirror) tw th).getD y []).flatMap
          (fun i => glyphs.getD i []))) ∧
    (∀ sample : Nat → Nat → Nat,
      (idxGrid glyphs.length sample tw th).length = th ∧
      (∀ row ∈ idxGrid glyphs.length sample tw th,
        row.length = tw ∧ ∀ i ∈ row, i ≤ glyphs.length - 1) ∧
      (gridMin sample tw th = gridMax sample tw th →
        ∀ row ∈ idxGrid glyphs.length sample tw th, ∀ i ∈ row, i = 0)) := by
  refine ⟨renderCore_decomp glyphs _ x_off y_off tw th htw hth hg,
          renderCore_decomp glyphs _ x_off y_off tw th htw hth hg, ?_⟩
  intro sample
  exact ⟨idxGrid_length glyphs.length sample tw th,
         fun row hrow => idxGrid_row glyphs.length sample tw th row hrow,
         fun hmm row hrow => idxGrid_const glyphs.length sample tw th hmm row hrow⟩

/-- C5 (witness): the decomposition at a concrete 2x1 render. -/
theorem claim_C5_witness :
    renderBuffer asciiRamp (fun i => [7, 200].getD i 0) 2 1 0 0 2 1 false =
      (List.range 1).flatMap (fun y =>
        cursorPos (0 + y + 1) (0 + 1) ++
        ((idxGrid asciiRamp.length
            (sampleLuma (fun i => [7, 200].getD i 0) 2 1 2 1 false) 2 1).getD y []).flatMap
          (fun i => asciiRamp.getD i [])) :=
  (claim_C5 asciiRamp (fun i => [7, 200].getD i 0) 2 1 0 0 2 1 false
    (by omega) (by omega) (by omega) (by omega) (by decide)).1

/-- C6 (counterexample): the source [0,255,0] of width 3 is horizontally
symmetric, yet rendering it to a width-2 destination with mirror=true
differs byte-for-byte from mirror=false: floor-division resampling picks
columns 1,0 mirrored but 0,1 unmirrored. -/
theorem claim_C6_counterexample :
    (∀ x, x < 3 → ∀ y, y < 1 →
      ([0, 255, 0].getD (y * 3 + x) 0 : Nat) = [0, 255, 0].getD (y * 3 + (3 - 1 - x)) 0) ∧
    renderBuffer asciiRamp (fun i => [0, 255, 0].getD i 0) 3 1 0 0 2 1 true ≠
      renderBuffer asciiRamp (fun i => [0, 255, 0].getD i 0) 3 1 0 0 2 1 false := by
  decide

/-- C6 (amended): on a horizontally symmetric source, the mirrored and
unmirrored renders agree byte-for-byte when the destination width equals
the source width (1:1 horizontal sampling); for narrower or wider
destinations they can differ (see the counterexample). -/
theorem claim_C6_amended (glyphs : List (List Nat)) (pixels : Nat → Nat)
    (w h x_off y_off th : Nat) (hw : 1 ≤ w) (hh : 1 ≤ h) (hth : 1 ≤ th)
    (hsym : ∀ x, x < w → ∀ y, y < h →
      pixels (y * w + x) % 256 = pixels (y * w + (w - 1 - x)) % 256) :
    renderBuffer glyphs pixels w h x_off y_off w th true =
      renderBuffer glyphs pixels w h x_off y_off w th false := by
  unfold renderBuffer
  apply renderCore_congr
  intro x hx y hy
  unfold sampleLuma
  have hsx_t : srcX true x w w = w - 1 - x := by
    show (if (w - 1 - x) * w / w ≥ w then w - 1 else (w - 1 - x) * w / w) = w - 1 - x
    rw [Nat.mul_div_cancel (w - 1 - x) (by omega)]
    exact if_neg (by omega)
  have hsx_f : srcX false x w w = x := by
    show (if x * w / w ≥ w then w - 1 else x * w / w) = x
    rw [Nat.mul_div_cancel x (by omega)]
    exact if_neg (by omega)
  have hiy : srcY y th h < h := by
    have hle := srcY_le y th h (by omega)
    omega
  rw [hsx_t, hsx_f]
  exact (hsym x hx (srcY y th h) hiy).symm

/-- C6 (witness): a symmetric width-3 source rendered 1:1 agrees under
both mirror settings. -/
theorem claim_C6_witness :
    renderBuffer asciiRamp (fun i => [5, 9, 5].getD i 0) 3 1 0 0 3 1 true =
      renderBuffer asciiRamp (fun i => [5, 9, 5].getD i 0) 3 1 0 0 3 1 false :=
  claim_C6_amended asciiRamp (fun i => [5, 9, 5].getD i 0) 3 1 0 0 1
    (by omega) (by omega) (by omega) (by decide)

/-- C10: for positive source dimensions, every source index computed by
the render loops is clamped into bounds: ix is at most w-1, iy at most
h-1, the flat grayscale read index is below w*h, and the last byte of the
BGRA quad read is below w*h*4. -/
theorem claim_C10 (w h tw th x y : Nat) (mirror : Bool)
    (hw : 1 ≤ w) (hh : 1 ≤ h) (htw : 1 ≤ tw) (hth : 1 ≤ th)
    (hx : x < tw) (hy : y < th) :
    srcX mirror x tw w ≤ w - 1 ∧ srcY y th h ≤ h - 1 ∧
    srcY y th h * w + srcX mirror x tw w < w * h ∧
    (srcY y th h * w + srcX mirror x tw w) * 4 + 3 < w * h * 4 := by
  have h1 : srcX mirror x tw w ≤ w - 1 := srcX_le mirror x tw w hw
  have h2 : srcY y th h ≤ h - 1 := srcY_le y th h hh
  have h3 : srcY y th h * w + srcX mirror x tw w < w * h := by
    calc srcY y th h * w + srcX mirror x tw w
        < srcY y th h * w + w := by omega
      _ = (srcY y th h + 1) * w := by ring
      _ ≤ h * w := Nat.mul_le_mul_right w (by omega)
      _ = w * h := Nat.mul_comm h w
  exact ⟨h1, h2, h3, by omega⟩

/-- C10 (witness): bounds at a concrete mirrored 5x4 to 3x2 resample. -/
theorem claim_C10_witness :
    srcX true 2 5 3 ≤ 3 - 1 ∧ srcY 1 4 2 ≤ 2 - 1 ∧
    srcY 1 4 2 * 3 + srcX true 2 5 3 < 3 * 2 ∧
    (srcY 1 4 2 * 3 + srcX true 2 5 3) * 4 + 3 < 3 * 2 * 4 :=
  claim_C10 3 2 5 4 2 1 true (by omega) (by omega) (by omega) (by omega)
    (by omega) (by omega)

/-! ### Claim theorems: density ramp -/

theorem utf8SegmentsF_flatten : ∀ (fuel : Nat) (l : List Nat), l.length ≤ fuel →
    (utf8SegmentsF fuel l).flatten = l := by
  intro fuel
  induction fuel with
  | zero =>
    intro l hl
    have : l = [] := List.length_eq_zero.mp (by omega)
    subst this
    rfl
  | succ f ih =>
    intro l hl
    cases l with
    | nil => rfl
    | cons c rest =>
      simp only [utf8SegmentsF, List.flatten_cons]
      rw [ih (rest.drop (get_utf8_char_len c - 1))
        (by simp only [List.length_drop]; simp only [List.length_cons] at hl; omega)]
      simp only [List.cons_append, List.take_append_drop]

/-- C7: segmenting any non-empty density byte string by UTF-8 lead byte
and concatenating the glyphs yields exactly the original bytes, and
setDensityString stores that glyph list. -/
theorem claim_C7 (s : List Nat) (hs : s ≠ []) :
    (utf8Segments s).flatten = s ∧
    ∃ gs, setDensityString s = some gs ∧ gs.flatten = s := by
  have hflat : (utf8Segments s).flatten = s :=
    utf8SegmentsF_flatten s.length s le_rfl
  have hne : utf8Segments s ≠ [] := by
    cases s with
    | nil => exact absurd rfl hs
    | cons c rest =>
      show utf8SegmentsF (rest.length + 1) (c :: rest) ≠ []
      simp [utf8SegmentsF]
  refine ⟨hflat, utf8Segments s, ?_, hflat⟩
  unfold setDensityString
  rw [if_neg (by simpa [List.length_eq_zero] using hne)]

/-- C7 (witness): the ASCII default ramp bytes round-trip through the
segmenter. -/
theorem claim_C7_witness :
    (utf8Segments [32, 46, 120, 63, 65, 64]).flatten = [32, 46, 120, 63, 65, 64] :=
  (claim_C7 [32, 46, 120, 63, 65, 64] (by simp)).1

/-! ### Claim theorems: rate limiter -/

theorem runSends_ge (times : List Nat) : ∀ d : Nat, ∀ s ∈ runSends times d, d ≤ s := by
  induction times with
  | nil => intro d s hs; simp [runSends] at hs
  | cons now rest ih =>
    intro d s hs
    simp only [runSends] at hs
    by_cases hd : d ≤ now
    · rw [if_pos hd] at hs
      rcases List.mem_cons.mp hs with h | h
      · omega
      · have := ih (now + 33) s h
        omega
    · rw [if_neg hd] at hs
      exact ih d s hs

theorem runSends_gapped (times : List Nat) : ∀ d : Nat,
    List.Chain' (fun a b => a + 33 ≤ b) (runSends times d) := by
  induction times with
  | nil => intro d; simp [runSends]
  | cons now rest ih =>
    intro d
    simp only [runSends]
    by_cases hd : d ≤ now
    · rw [if_pos hd, List.chain'_cons']
      refine ⟨?_, ih (now + 33)⟩
      intro y hy
      exact runSends_ge rest (now + 33) y (List.mem_of_mem_head? hy)
    · rw [if_neg hd]
      exact ih d

theorem gap_chain_all (s : Nat) (rest : List Nat)
    (h : List.Chain' (fun a b => a + 33 ≤ b) (s :: rest)) :
    ∀ x ∈ rest, s + 33 ≤ x := by
  induction rest generalizing s with
  | nil => simp
  | cons b l ih =>
    intro x hx
    have h1 : s + 33 ≤ b := (List.chain'_cons.mp h).1
    rcases List.mem_cons.mp hx with hb | hx'
    · omega
    · have := ih b (List.chain'_cons.mp h).2 x hx'
      omega

theorem filter_length_le_of_imp (l : List Nat) (p q : Nat → Bool)
    (h : ∀ x ∈ l, p x = true → q x = true) :
    (l.filter p).length ≤ (l.filter q).length := by
  induction l with
  | nil => simp
  | cons a l ih =>
    have htail : ∀ x ∈ l, p x = true → q x = true := fun x hx => h x (by simp [hx])
    by_cases hpa : p a = true
    · have hqa : q a = true := h a (by simp) hpa
      simp only [List.filter_cons, hpa, hqa, if_true, List.length_cons]
      exact Nat.succ_le_succ (ih htail)
    · simp only [List.filter_cons, hpa, if_false, Bool.false_eq_true]
      by_cases hqa : q a = true
      · simp only [hqa, if_true, List.length_cons]
        have := ih htail
        omega
      · simp only [hqa, if_false, Bool.false_eq_true]
        exact ih htail

theorem gapped_count (l : List Nat) :
    List.Chain' (fun a b => a + 33 ≤ b) l →
    ∀ b k : Nat, (l.filter (fun s => decide (b ≤ s ∧ s < b + 33 * k))).length ≤ k := by
  induction l with
  | nil => intro _ b k; simp
  | cons s rest ih =>
    intro hch b k
    have hall := gap_chain_all s rest hch
    have htail := hch.tail
    by_cases hin : b ≤ s ∧ s < b + 33 * k
    · have hk : 1 ≤ k := by omega
      have hrest : (rest.filter (fun x => decide (b ≤ x ∧ x < b + 33 * k))).length ≤ k - 1 := by
        have h2 := ih htail (s + 33) (k - 1)
        have h3 := filter_length_le_of_imp rest
          (fun x => decide (b ≤ x ∧ x < b + 33 * k))
          (fun x => decide (s + 33 ≤ x ∧ x < (s + 33) + 33 * (k - 1)))
          (by
            intro x hx hpx
            simp only [decide_eq_true_eq] at hpx ⊢
            have hgap := hall x hx
            have : x < s + 33 + 33 * (k - 1) := by
              have hbk : 33 * k = 33 + 33 * (k - 1) := by
                have : k - 1 + 1 = k := by omega
                calc 33 * k = 33 * (k - 1 + 1) := by rw [this]
                  _ = 33 * (k - 1) + 33 := by ring
                  _ = 33 + 33 * (k - 1) := by ring
              omega
            exact ⟨hgap, this⟩)
        omega
      rw [List.filter_cons, if_pos (by simpa using hin)]
      simp only [List.length_cons]
      omega
    · rw [List.filter_cons, if_neg (by simpa using hin)]
      exact ih htail b k

/-- C9: when a capture frame is available on every tick, at most 31 send
times produced by the rate limiter fall inside any 1000 ms window: sends
happen only at or past the deadline and each send pushes the deadline
33 ms past the current time. -/
theorem claim_C9 (times : List Nat) (d t : Nat) :
    ((runSends times d).filter (fun s => decide (t ≤ s ∧ s < t + 1000))).length ≤ 31 := by
  have h1 := gapped_count (runSends times d) (runSends_gapped times d) t 31
  have h2 := filter_length_le_of_imp (runSends times d)
    (fun s => decide (t ≤ s ∧ s < t + 1000))
    (fun s => decide (t ≤ s ∧ s < t + 33 * 31))
    (by
      intro x _ hx
      simp only [decide_eq_true_eq] at hx ⊢
      omega)
  omega

end Picturephone
